import Mathlib

/-!
Shallow embedding of the from-scratch kNN functions of this repository
(`euclidean_distance`, `get_neighbours`, `get_response`, `get_accuracy`)
and proofs about them.

Conventions of the embedding:
* feature vectors are `List ℚ` (exact rationals stand in for the floats of
  the source where only ring operations and comparisons are involved; the
  final square root is taken in `ℝ`);
* a Python runtime error (IndexError from an out-of-range subscript,
  ZeroDivisionError from a division by zero) is modelled by `Option.none`:
  a function that can raise returns an `Option`;
* `np.argsort` is called with its default (unstable) sort kind, so the
  index permutation it returns is not a function of its input alone; it is
  passed to the model of `get_neighbours` explicitly, constrained by the
  predicate `IsArgsort`, which holds of every permutation that sorts the
  distance list weakly ascending — exactly the contract `np.argsort`
  documents;
* Python's `dict` preserves insertion order and `sorted` is a stable sort
  (both documented language guarantees); they are modelled by an
  insertion-ordered association list and a stable descending insertion
  sort.
-/

namespace KNN

/-- Embedding of `euclidean_distance`'s accumulation loop
`for l in range(len(instance1)): distance += (instance1[l] - instance2[l])**2`:
it walks the indices of `instance1`, reads `instance2` at the same index
(`none` models the IndexError raised when `instance2` is exhausted), and sums
the squared differences. -/
def euclidean_sq : List ℚ → List ℚ → Option ℚ
  | [], _ => some 0
  | _ :: _, [] => none
  | x :: xs, y :: ys => (euclidean_sq xs ys).map (fun d => (x - y) ^ 2 + d)

/-- Embedding of `euclidean_distance`: the accumulated sum of squared
per-dimension differences, then `math.sqrt`. -/
noncomputable def euclidean_distance (instance1 instance2 : List ℚ) : Option ℝ :=
  (euclidean_sq instance1 instance2).map (fun d : ℚ => Real.sqrt ((d : ℚ) : ℝ))

/-- Closed form for the sum of squared per-dimension differences over the
paired coordinates (`zip` truncates at the length of the shorter list). -/
def sq_dist (a b : List ℚ) : ℚ :=
  ((a.zip b).map (fun p => (p.1 - p.2) ^ 2)).sum

/-- The real distance value the source computes when no error occurs. -/
noncomputable def dist_val (a b : List ℚ) : ℝ :=
  Real.sqrt ((sq_dist a b : ℚ) : ℝ)

/-- `xs[idx]` of the source: numpy fancy indexing, reading `xs` at each index
of `idx` in order. Indices produced by `np.argsort` are always in range, so
the `default` branch of `getD` is never reached under the `IsArgsort`
hypotheses below. -/
def select {α : Type} [Inhabited α] (xs : List α) (idx : List ℕ) : List α :=
  idx.map (fun i => xs.getD i default)

/-- The contract of `np.argsort` applied to the list `ds`: the result is a
permutation of `range (len ds)` along which `ds` reads weakly ascending.
(The default sort kind of `np.argsort` is documented as unstable, so the tie
order among equal values is not determined; `IsArgsort` holds of every
permutation the call may return.) -/
def IsArgsort (ds : List ℝ) (idx : List ℕ) : Prop :=
  idx.Perm (List.range ds.length) ∧
  (idx.map (fun i => ds.getD i 0)).Sorted (· ≤ ·)

/-- Embedding of `get_neighbours`: reorder `data` and `labels` by the index
permutation `idx` returned by `np.argsort` of the distance list, then keep the
first `K` of each. The distances the source sorts by are
`data.map (dist_val test_instance)`; `idx` is constrained by `IsArgsort` in
the theorems. -/
def get_neighbours {L : Type} [Inhabited L] (data : List (List ℚ)) (labels : List L)
    (K : ℕ) (idx : List ℕ) : List (List ℚ) × List L :=
  ((select data idx).take K, (select labels idx).take K)

/-- One step of `get_response`'s tallying loop on the insertion-ordered dict
`class_votes`: `if response in class_votes: class_votes[response] += 1
else: class_votes[response] = 1`. -/
def bump {L : Type} [DecidableEq L] (acc : List (L × ℕ)) (x : L) : List (L × ℕ) :=
  if acc.any (fun p => decide (p.1 = x)) then
    acc.map (fun p => if p.1 = x then (p.1, p.2 + 1) else p)
  else
    acc ++ [(x, 1)]

/-- The dict `class_votes` after the tallying loop of `get_response`:
an association list from label to occurrence count, keys in first-seen order
(the insertion order of a Python dict). -/
def tally {L : Type} [DecidableEq L] (xs : List L) : List (L × ℕ) :=
  xs.foldl bump []

/-- Insert a pair into a list already sorted weakly descending by count,
keeping it before every strictly smaller count and after every earlier
greater-or-equal count. -/
def insertDesc {L : Type} (p : L × ℕ) : List (L × ℕ) → List (L × ℕ)
  | [] => [p]
  | q :: qs => if q.2 ≤ p.2 then p :: q :: qs else q :: insertDesc p qs

/-- `sorted(class_votes.items(), key=itemgetter(1), reverse=True)` of the
source: a stable sort, descending by count (Python's `sorted` is documented
stable, also with `reverse=True`; the stable descending sort of a list is
unique, so this insertion sort computes it). -/
def sortDesc {L : Type} (l : List (L × ℕ)) : List (L × ℕ) :=
  l.foldr insertDesc []

/-- Embedding of `get_response`: tally the votes, stable-sort descending by
count, return the label of the first entry; `none` models the IndexError of
`sorted_votes[0]` on an empty vote list. -/
def get_response {L : Type} [DecidableEq L] (neighbours : List L) : Option L :=
  ((sortDesc (tally neighbours)).head?).map (fun p => p.1)

/-- The composed classification step the notebook performs:
`get_response(get_neighbours(data, labels, test_instance, K)['labels'])`. -/
def classify {L : Type} [Inhabited L] [DecidableEq L] (data : List (List ℚ))
    (labels : List L) (K : ℕ) (idx : List ℕ) : Option L :=
  get_response (get_neighbours data labels K idx).2

/-- Embedding of `get_accuracy`'s loop
`for i in range(len(test_set)): if test_set[i] == predictions[i]: correct += 1`:
walks the indices of `test_set`, `none` models the IndexError raised when
`predictions` is exhausted. -/
def correct_count {L : Type} [DecidableEq L] : List L → List L → Option ℕ
  | [], _ => some 0
  | _ :: _, [] => none
  | t :: ts, p :: ps =>
    (correct_count ts ps).map (fun c => (if t = p then 1 else 0) + c)

/-- Embedding of `get_accuracy`:
`(float(correct) / float(len(test_set))) * 100.0`; `none` models the
ZeroDivisionError on an empty `test_set` and the IndexError propagated from
the loop. -/
def get_accuracy {L : Type} [DecidableEq L] (test_set predictions : List L) : Option ℚ :=
  if test_set.length = 0 then none
  else (correct_count test_set predictions).map
    (fun c : ℕ => ((c : ℚ) / (test_set.length : ℚ)) * 100)

/-- Number of positions where the two sequences agree, over the paired
prefix. -/
def match_count {L : Type} [DecidableEq L] (t p : List L) : ℕ :=
  ((t.zip p).filter (fun q => decide (q.1 = q.2))).length

/-- Index of the first occurrence of `y` in the list (length of the list if
absent). -/
def firstIdx {L : Type} [DecidableEq L] : List L → L → ℕ
  | [], _ => 0
  | x :: xs, y => if x = y then 0 else firstIdx xs y + 1

/-! ### Lemmas about the distance function -/

lemma euclidean_sq_eq_none_iff :
    ∀ a b : List ℚ, euclidean_sq a b = none ↔ b.length < a.length := by
  intro a
  induction a with
  | nil =>
    intro b
    simp [euclidean_sq]
  | cons x xs ih =>
    intro b
    cases b with
    | nil => simp [euclidean_sq]
    | cons y ys =>
      simp [euclidean_sq, Option.map_eq_none', ih ys, Nat.succ_lt_succ_iff]

lemma euclidean_sq_eq_some (a b : List ℚ) (h : a.length ≤ b.length) :
    euclidean_sq a b = some (sq_dist a b) := by
  induction a generalizing b with
  | nil => simp [euclidean_sq, sq_dist]
  | cons x xs ih =>
    cases b with
    | nil => simp at h
    | cons y ys =>
      have h' : xs.length ≤ ys.length := Nat.succ_le_succ_iff.mp h
      simp [euclidean_sq, ih ys h', sq_dist]

lemma sq_dist_nonneg (a b : List ℚ) : 0 ≤ sq_dist a b := by
  apply List.sum_nonneg
  intro x hx
  obtain ⟨p, _, rfl⟩ := List.mem_map.mp hx
  positivity

lemma zip_take_length (a : List ℚ) :
    ∀ b : List ℚ, a.zip (b.take a.length) = a.zip b := by
  induction a with
  | nil => intro b; simp
  | cons x xs ih =>
    intro b
    cases b with
    | nil => simp
    | cons y ys => simpa [List.zip] using ih ys

/-! ### Lemmas about the scorer -/

lemma correct_count_none_iff {L : Type} [DecidableEq L] :
    ∀ t p : List L, correct_count t p = none ↔ p.length < t.length := by
  intro t
  induction t with
  | nil =>
    intro p
    simp [correct_count]
  | cons x ts ih =>
    intro p
    cases p with
    | nil => simp [correct_count]
    | cons q ps =>
      simp [correct_count, Option.map_eq_none', ih ps, Nat.succ_lt_succ_iff]

lemma match_count_cons {L : Type} [DecidableEq L] (x q : L) (ts ps : List L) :
    match_count (x :: ts) (q :: ps) = (if x = q then 1 else 0) + match_count ts ps := by
  by_cases hx : x = q
  · simp [match_count, hx, List.filter_cons]
    omega
  · simp [match_count, hx, List.filter_cons]

lemma correct_count_eq_some {L : Type} [DecidableEq L] :
    ∀ t p : List L, t.length ≤ p.length →
      correct_count t p = some (match_count t p) := by
  intro t
  induction t with
  | nil =>
    intro p _
    simp [correct_count, match_count]
  | cons x ts ih =>
    intro p h
    cases p with
    | nil => simp at h
    | cons q ps =>
      have h' : ts.length ≤ ps.length := Nat.succ_le_succ_iff.mp h
      simp [correct_count, ih ps h', match_count_cons]

lemma match_count_le_length {L : Type} [DecidableEq L] (t p : List L) :
    match_count t p ≤ t.length := by
  calc match_count t p ≤ (t.zip p).length := List.length_filter_le _ _
    _ ≤ t.length := by rw [List.length_zip]; exact Nat.min_le_left _ _

/-! ### Claim theorems: distance function (C2, C3, C10) -/

/-- Claim C2 as stated is false on the code: `euclidean_distance` performs no
length check, so for the concrete unequal-length pair `[0]` and `[0, 1]` the
call does not fail at all — the trailing component of the second vector is
silently ignored. -/
theorem euclidean_distance_unequal_no_error :
    ([0] : List ℚ).length ≠ ([0, 1] : List ℚ).length ∧
    euclidean_distance [0] [0, 1] ≠ none := by
  constructor
  · decide
  · simp [euclidean_distance, euclidean_sq]

/-- Claim C2, amended: `euclidean_distance` fails (the IndexError of reading
`instance2` past its end, modelled by `none`, surfacing to the caller) exactly
when the second vector is shorter than the first; a second vector that is
longer is not an error — its trailing components are silently ignored. -/
theorem euclidean_distance_none_iff (a b : List ℚ) :
    euclidean_distance a b = none ↔ b.length < a.length := by
  rw [euclidean_distance, Option.map_eq_none']
  exact euclidean_sq_eq_none_iff a b

/-- Claim C3: for equal-length vectors, `euclidean_distance` succeeds and
equals the square root of the sum over all dimensions of the squared
per-dimension difference. -/
theorem euclidean_distance_eq_sqrt_sum (a b : List ℚ) (h : a.length = b.length) :
    euclidean_distance a b =
      some (Real.sqrt ((((a.zip b).map (fun p => (p.1 - p.2) ^ 2)).sum : ℚ) : ℝ)) := by
  rw [euclidean_distance, euclidean_sq_eq_some a b (le_of_eq h)]
  rfl

/-- Witness for C3 at the spec's literal scenario 1:
`distance([0,1,2], [0,2,4]) = sqrt 5`. -/
theorem euclidean_distance_eq_sqrt_sum_witness :
    ([0, 1, 2] : List ℚ).length = ([0, 2, 4] : List ℚ).length ∧
    euclidean_distance [0, 1, 2] [0, 2, 4] = some (Real.sqrt 5) := by
  refine ⟨rfl, ?_⟩
  rw [euclidean_distance_eq_sqrt_sum [0, 1, 2] [0, 2, 4] rfl]
  norm_num

/-- Claim C10: when the second vector is strictly longer than the first, the
call succeeds, returns the Euclidean distance over the first `len(instance1)`
dimensions only (`sq_dist` sums over the `zip`, which stops at the first
list's length), and coincides with the distance to the truncated second
vector: the trailing components are silently ignored. -/
theorem euclidean_distance_truncates (a b : List ℚ) (h : a.length < b.length) :
    euclidean_distance a b = some (dist_val a b) ∧
    euclidean_distance a b = euclidean_distance a (b.take a.length) := by
  have h1 : euclidean_distance a b = some (dist_val a b) := by
    rw [euclidean_distance, euclidean_sq_eq_some a b (le_of_lt h)]
    rfl
  refine ⟨h1, ?_⟩
  have htake : a.length ≤ (b.take a.length).length := by
    simp [le_of_lt h]
  rw [h1, euclidean_distance, euclidean_sq_eq_some a (b.take a.length) htake]
  simp [dist_val, sq_dist, zip_take_length]

/-- Witness for C10 at `instance1 = [0, 1]`, `instance2 = [0, 2, 9]`. -/
theorem euclidean_distance_truncates_witness :
    ([0, 1] : List ℚ).length < ([0, 2, 9] : List ℚ).length ∧
    (euclidean_distance [0, 1] [0, 2, 9] = some (dist_val [0, 1] [0, 2, 9]) ∧
     euclidean_distance [0, 1] [0, 2, 9] =
       euclidean_distance [0, 1] (([0, 2, 9] : List ℚ).take ([0, 1] : List ℚ).length)) :=
  ⟨by decide, euclidean_distance_truncates [0, 1] [0, 2, 9] (by decide)⟩

/-! ### Claim theorems: scorer (C1, C8) -/

/-- Claim C1 as stated is false on the code: `get_accuracy` multiplies the
fraction correct by 100, so on the spec's own literal scenario it returns
200/3 (a percentage), not 2/3, and the result is not in [0, 1]. -/
theorem get_accuracy_not_in_unit_interval :
    get_accuracy (['a', 'a', 'b'] : List Char) ['a', 'a', 'a'] = some (200 / 3) ∧
    (200 / 3 : ℚ) ≠ 2 / 3 ∧ ¬ (200 / 3 : ℚ) ≤ 1 := by
  refine ⟨?_, by norm_num, by norm_num⟩
  simp +decide [get_accuracy, correct_count]
  norm_num

/-- Claim C1, amended: for equal-length non-empty label sequences,
`get_accuracy` returns the count of agreeing positions divided by the total
length, multiplied by 100 — a percentage in [0, 100]; in particular
`get_accuracy(['a','a','b'], ['a','a','a']) = 200/3 ≈ 66.7`. -/
theorem get_accuracy_percent {L : Type} [DecidableEq L] (t p : List L)
    (hlen : t.length = p.length) (hne : t ≠ []) :
    get_accuracy t p = some ((match_count t p : ℚ) / (t.length : ℚ) * 100) ∧
    0 ≤ (match_count t p : ℚ) / (t.length : ℚ) * 100 ∧
    (match_count t p : ℚ) / (t.length : ℚ) * 100 ≤ 100 := by
  have hlen0 : t.length ≠ 0 := by
    simpa [List.length_eq_zero] using hne
  have hpos : (0 : ℚ) < (t.length : ℚ) := by
    exact_mod_cast Nat.pos_of_ne_zero hlen0
  refine ⟨?_, ?_, ?_⟩
  · rw [get_accuracy, if_neg hlen0, correct_count_eq_some t p (le_of_eq hlen)]
    rfl
  · positivity
  · have hc : (match_count t p : ℚ) ≤ (t.length : ℚ) := by
      exact_mod_cast match_count_le_length t p
    have : (match_count t p : ℚ) / (t.length : ℚ) ≤ 1 :=
      (div_le_one hpos).mpr hc
    nlinarith

/-- Witness for the amended C1 at the spec's literal scenario 4. -/
theorem get_accuracy_percent_witness :
    (['a', 'a', 'b'] : List Char).length = (['a', 'a', 'a'] : List Char).length ∧
    (['a', 'a', 'b'] : List Char) ≠ [] ∧
    get_accuracy (['a', 'a', 'b'] : List Char) ['a', 'a', 'a'] =
      some ((match_count (['a', 'a', 'b'] : List Char) ['a', 'a', 'a'] : ℚ) /
        ((['a', 'a', 'b'] : List Char).length : ℚ) * 100) :=
  ⟨rfl, by simp,
    (get_accuracy_percent (['a', 'a', 'b'] : List Char) ['a', 'a', 'a'] rfl
      (by simp)).1⟩

/-- Claim C8 as stated is false on the code: `get_accuracy` performs no
length check, so when `predictions` is longer than `test_set` it silently
scores the paired prefix and succeeds — here with a perfect 100. -/
theorem get_accuracy_silent_mismatch :
    (['a'] : List Char).length ≠ (['a', 'b'] : List Char).length ∧
    get_accuracy (['a'] : List Char) ['a', 'b'] = some 100 := by
  refine ⟨by decide, ?_⟩
  simp +decide [get_accuracy, correct_count]

/-- Claim C8, amended: `get_accuracy` fails (modelled by `none`: the
ZeroDivisionError of dividing by `len(test_set) = 0`, or the IndexError of
reading `predictions` past its end) exactly when `test_set` is empty or
`predictions` is shorter than `test_set`; when `predictions` is longer, the
call succeeds and the extra entries are silently ignored. -/
theorem get_accuracy_none_iff {L : Type} [DecidableEq L] (t p : List L) :
    get_accuracy t p = none ↔ (t = [] ∨ p.length < t.length) := by
  rw [get_accuracy]
  split_ifs with h0
  · simp [List.length_eq_zero.mp h0]
  · have ht : t ≠ [] := by
      intro h
      exact h0 (by simp [h])
    rw [Option.map_eq_none', correct_count_none_iff]
    simp [ht]

/-! ### Lemmas about the voter -/

lemma bump_ne_nil {L : Type} [DecidableEq L] (acc : List (L × ℕ)) (x : L) :
    bump acc x ≠ [] := by
  rw [bump]
  split_ifs with h
  · intro hmap
    rcases acc with _ | ⟨p, ps⟩
    · simp at h
    · simp at hmap
  · simp

lemma foldl_bump_ne_nil {L : Type} [DecidableEq L] :
    ∀ (xs : List L) (acc : List (L × ℕ)), acc ≠ [] → xs.foldl bump acc ≠ [] := by
  intro xs
  induction xs with
  | nil =>
    intro acc h
    simpa using h
  | cons x rest ih =>
    intro acc h
    simpa [List.foldl] using ih (bump acc x) (bump_ne_nil acc x)

lemma tally_ne_nil {L : Type} [DecidableEq L] (xs : List L) (h : xs ≠ []) :
    tally xs ≠ [] := by
  rcases xs with _ | ⟨x, rest⟩
  · exact absurd rfl h
  · rw [tally, List.foldl_cons]
    exact foldl_bump_ne_nil rest (bump [] x) (bump_ne_nil [] x)

lemma tally_append_singleton {L : Type} [DecidableEq L] (ys : List L) (x : L) :
    tally (ys ++ [x]) = bump (tally ys) x := by
  rw [tally, List.foldl_append, List.foldl_cons, List.foldl_nil, tally]

lemma insertDesc_length {L : Type} (p : L × ℕ) :
    ∀ l : List (L × ℕ), (insertDesc p l).length = l.length + 1 := by
  intro l
  induction l with
  | nil => rfl
  | cons q qs ih =>
    rw [insertDesc]
    split_ifs
    · simp
    · simp [ih]

lemma sortDesc_length {L : Type} (l : List (L × ℕ)) :
    (sortDesc l).length = l.length := by
  induction l with
  | nil => rfl
  | cons p ps ih =>
    rw [sortDesc, List.foldr_cons, insertDesc_length]
    rw [sortDesc] at ih
    rw [ih]
    simp

/-- The first element of the stable descending sort: it attains the maximal
count, and every entry that preceded it in the input has a strictly smaller
count (stability: an earlier entry with an equal count would have stayed in
front). -/
lemma sortDesc_head {L : Type} :
    ∀ l : List (L × ℕ), l ≠ [] →
      ∃ m l₁ l₂, (sortDesc l).head? = some m ∧ l = l₁ ++ m :: l₂ ∧
        (∀ q ∈ l₁, q.2 < m.2) ∧ (∀ q ∈ l, q.2 ≤ m.2) := by
  intro l
  induction l with
  | nil =>
    intro h
    exact absurd rfl h
  | cons p rest ih =>
    intro _
    rcases rest with _ | ⟨r, rest'⟩
    · exact ⟨p, [], [], rfl, rfl, by simp, by simp⟩
    · obtain ⟨m, l₁, l₂, hhead, hsplit, hlt, hle⟩ := ih (by simp)
      obtain ⟨tail, htail⟩ : ∃ t, sortDesc (r :: rest') = m :: t := by
        rcases hs : sortDesc (r :: rest') with _ | ⟨m', t⟩
        · rw [hs] at hhead
          simp at hhead
        · rw [hs] at hhead
          simp at hhead
          exact ⟨t, by rw [hhead]⟩
      by_cases hcmp : m.2 ≤ p.2
      · refine ⟨p, [], r :: rest', ?_, rfl, by simp, ?_⟩
        · rw [sortDesc, List.foldr_cons,
            show List.foldr insertDesc [] (r :: rest') = sortDesc (r :: rest') from rfl,
            htail, insertDesc, if_pos hcmp]
          rfl
        · intro q hq
          rcases List.mem_cons.mp hq with h1 | h2
          · exact le_of_eq (by rw [h1])
          · exact le_trans (hle q h2) hcmp
      · push_neg at hcmp
        refine ⟨m, p :: l₁, l₂, ?_, by rw [List.cons_append, hsplit], ?_, ?_⟩
        · rw [sortDesc, List.foldr_cons,
            show List.foldr insertDesc [] (r :: rest') = sortDesc (r :: rest') from rfl,
            htail, insertDesc, if_neg (by omega)]
          rfl
        · intro q hq
          rcases List.mem_cons.mp hq with h1 | h2
          · rw [h1]
            exact hcmp
          · exact hlt q h2
        · intro q hq
          rcases List.mem_cons.mp hq with h1 | h2
          · rw [h1]
            exact le_of_lt hcmp
          · exact hle q h2

lemma firstIdx_lt_length {L : Type} [DecidableEq L] :
    ∀ (xs : List L) (y : L), y ∈ xs → firstIdx xs y < xs.length := by
  intro xs
  induction xs with
  | nil =>
    intro y h
    simp at h
  | cons x rest ih =>
    intro y h
    rw [firstIdx]
    split_ifs with hx
    · simp
    · have hm : y ∈ rest := by
        rcases List.mem_cons.mp h with h1 | h2
        · exact absurd h1.symm hx
        · exact h2
      simpa [Nat.succ_lt_succ_iff] using ih y hm

lemma firstIdx_append_of_mem {L : Type} [DecidableEq L] :
    ∀ (xs zs : List L) (y : L), y ∈ xs → firstIdx (xs ++ zs) y = firstIdx xs y := by
  intro xs
  induction xs with
  | nil =>
    intro zs y h
    simp at h
  | cons x rest ih =>
    intro zs y h
    simp only [List.cons_append, firstIdx]
    split_ifs with hx
    · rfl
    · have hm : y ∈ rest := by
        rcases List.mem_cons.mp h with h1 | h2
        · exact absurd h1.symm hx
        · exact h2
      rw [List.append_eq, ih zs y hm]

lemma firstIdx_append_right {L : Type} [DecidableEq L] :
    ∀ (xs : List L) (y : L), y ∉ xs → firstIdx (xs ++ [y]) y = xs.length := by
  intro xs
  induction xs with
  | nil =>
    intro y _
    simp [firstIdx]
  | cons x rest ih =>
    intro y h
    have hx : ¬ x = y := by
      intro he
      exact h (by simp [he])
    simp only [List.cons_append, firstIdx, hx, if_false]
    rw [List.append_eq, ih y (fun hm => h (List.mem_cons_of_mem x hm))]
    simp

/-- The dict `class_votes` built by `get_response`'s loop, characterized:
every entry carries the occurrence count of its key, every scanned label has
an entry, and the entries are ordered by first occurrence of their keys in
the scanned sequence (a Python dict preserves insertion order). -/
lemma tally_spec {L : Type} [DecidableEq L] :
    ∀ xs : List L,
      (∀ p ∈ tally xs, p.1 ∈ xs ∧ p.2 = xs.count p.1) ∧
      (∀ y ∈ xs, ∃ c, (y, c) ∈ tally xs) ∧
      (tally xs).Pairwise (fun p q => firstIdx xs p.1 < firstIdx xs q.1) := by
  intro xs
  induction xs using List.reverseRecOn with
  | nil =>
    refine ⟨?_, ?_, ?_⟩ <;> simp [tally]
  | append_singleton ys x ih =>
    obtain ⟨T1, T2, T3⟩ := ih
    rw [tally_append_singleton, bump]
    by_cases hmem : (tally ys).any (fun p => decide (p.1 = x)) = true
    · -- `x` already has an entry: its count is bumped, keys and order unchanged
      rw [if_pos hmem]
      obtain ⟨e, he, hex⟩ : ∃ p ∈ tally ys, p.1 = x := by
        simpa using hmem
      refine ⟨?_, ?_, ?_⟩
      · intro p hp
        obtain ⟨q, hq, rfl⟩ := List.mem_map.mp hp
        obtain ⟨hq1, hq2⟩ := T1 q hq
        by_cases hqx : q.1 = x
        · rw [if_pos hqx]
          refine ⟨by simp [List.mem_append, hqx], ?_⟩
          simp [hqx, List.count_append, List.count_cons, hq2]
        · rw [if_neg hqx]
          have hqx' : ¬ x = q.1 := fun h => hqx h.symm
          refine ⟨by simp [List.mem_append, hq1], ?_⟩
          simp [List.count_append, List.count_cons, hq2, hqx']
      · intro y hy
        rcases List.mem_append.mp hy with hy1 | hy2
        · obtain ⟨c, hc⟩ := T2 y hy1
          by_cases hyx : y = x
          · refine ⟨c + 1, ?_⟩
            have : (fun p : L × ℕ => if p.1 = x then (p.1, p.2 + 1) else p) (y, c)
                = (y, c + 1) := by simp [hyx]
            exact this ▸ List.mem_map_of_mem _ hc
          · refine ⟨c, ?_⟩
            have : (fun p : L × ℕ => if p.1 = x then (p.1, p.2 + 1) else p) (y, c)
                = (y, c) := by simp [hyx]
            exact this ▸ List.mem_map_of_mem _ hc
        · have hyx : y = x := by simpa using hy2
          refine ⟨e.2 + 1, ?_⟩
          have : (fun p : L × ℕ => if p.1 = x then (p.1, p.2 + 1) else p) e
              = (y, e.2 + 1) := by simp [hex, hyx]
          exact this ▸ List.mem_map_of_mem _ he
      · rw [List.pairwise_map]
        refine T3.imp_of_mem ?_
        intro p q hp hq hpq
        have hp1 : p.1 ∈ ys := (T1 p hp).1
        have hq1 : q.1 ∈ ys := (T1 q hq).1
        have key : ∀ r : L × ℕ,
            ((if r.1 = x then (r.1, r.2 + 1) else r) : L × ℕ).1 = r.1 := by
          intro r
          split_ifs <;> rfl
        rw [key p, key q, firstIdx_append_of_mem ys [x] p.1 hp1,
          firstIdx_append_of_mem ys [x] q.1 hq1]
        exact hpq
    · -- `x` is fresh: a new entry with count 1 is appended at the end
      rw [if_neg hmem]
      have hxnot : x ∉ ys := by
        intro hx
        obtain ⟨c, hc⟩ := T2 x hx
        have hex : ∃ p ∈ tally ys, p.1 = x := ⟨(x, c), hc, rfl⟩
        exact hmem (by simpa using hex)
      refine ⟨?_, ?_, ?_⟩
      · intro p hp
        rcases List.mem_append.mp hp with hp1 | hp2
        · obtain ⟨hk, hcnt⟩ := T1 p hp1
          have hpx : ¬ x = p.1 := by
            intro h
            exact hxnot (by rw [h]; exact hk)
          refine ⟨by simp [List.mem_append, hk], ?_⟩
          simp [List.count_append, List.count_cons, hcnt, hpx]
        · have hp2' : p = (x, 1) := by simpa using hp2
          subst hp2'
          refine ⟨by simp, ?_⟩
          simp [List.count_append, List.count_eq_zero.mpr hxnot]
      · intro y hy
        rcases List.mem_append.mp hy with hy1 | hy2
        · obtain ⟨c, hc⟩ := T2 y hy1
          exact ⟨c, List.mem_append_left _ hc⟩
        · have hyx : y = x := by simpa using hy2
          exact ⟨1, by simp [hyx]⟩
      · rw [List.pairwise_append]
        refine ⟨T3.imp_of_mem ?_, by simp, ?_⟩
        · intro p q hp hq hpq
          rw [firstIdx_append_of_mem ys [x] p.1 (T1 p hp).1,
            firstIdx_append_of_mem ys [x] q.1 (T1 q hq).1]
          exact hpq
        · intro p hp q hq
          have hq' : q = (x, 1) := by simpa using hq
          subst hq'
          have hp1 : p.1 ∈ ys := (T1 p hp).1
          rw [firstIdx_append_of_mem ys [x] p.1 hp1, firstIdx_append_right ys x hxnot]
          exact firstIdx_lt_length ys p.1 hp1

/-! ### Claim theorem: voter error behaviour (C7) -/

/-- Claim C7: `get_response` fails (`none`, modelling the IndexError of
`sorted_votes[0]` on an empty dict, which surfaces to the caller) exactly
when its input label sequence is empty. -/
theorem get_response_none_iff {L : Type} [DecidableEq L] (xs : List L) :
    get_response xs = none ↔ xs = [] := by
  constructor
  · intro h
    by_contra hne
    obtain ⟨m, l₁, l₂, hhead, hsplit, hlt, hle⟩ :=
      sortDesc_head (tally xs) (tally_ne_nil xs hne)
    rw [get_response, hhead] at h
    simp at h
  · intro h
    subst h
    rfl

/-! ### Claim theorem: plurality vote (C6) -/

/-- Claim C6: on a non-empty label sequence, `get_response` returns a label
of maximal occurrence count, and among the labels tied for that maximal
count it returns the one whose first occurrence in the input sequence is
earliest. -/
theorem get_response_plurality {L : Type} [DecidableEq L] (xs : List L) (hne : xs ≠ []) :
    ∃ l, get_response xs = some l ∧ l ∈ xs ∧
      (∀ y ∈ xs, xs.count y ≤ xs.count l) ∧
      (∀ y ∈ xs, xs.count y = xs.count l → firstIdx xs l ≤ firstIdx xs y) := by
  obtain ⟨T1, T2, T3⟩ := tally_spec xs
  obtain ⟨m, l₁, l₂, hhead, hsplit, hlt, hle⟩ :=
    sortDesc_head (tally xs) (tally_ne_nil xs hne)
  have hm : m ∈ tally xs := by
    rw [hsplit]
    exact List.mem_append_right _ (List.mem_cons_self _ _)
  obtain ⟨hmx, hmc⟩ := T1 m hm
  refine ⟨m.1, ?_, hmx, ?_, ?_⟩
  · rw [get_response, hhead]
    rfl
  · intro y hy
    obtain ⟨c, hc⟩ := T2 y hy
    have hcy : c = xs.count y := by
      simpa using (T1 (y, c) hc).2
    have : c ≤ m.2 := hle (y, c) hc
    omega
  · intro y hy hcnt
    obtain ⟨c, hc⟩ := T2 y hy
    have hcy : c = xs.count y := by
      simpa using (T1 (y, c) hc).2
    rw [hsplit] at hc T3
    rcases List.mem_append.mp hc with hc1 | hc2
    · have : c < m.2 := hlt (y, c) hc1
      omega
    · rcases List.mem_cons.mp hc2 with hc3 | hc4
      · have : y = m.1 := congrArg Prod.fst hc3
        rw [this]
      · have hpw := (List.pairwise_append.mp T3).2.1
        have := (List.pairwise_cons.mp hpw).1 (y, c) hc4
        exact le_of_lt this

/-- Witness for C6 at the spec's literal scenario 3: `vote([1,1,0]) = 1`. -/
theorem get_response_plurality_witness :
    ([1, 1, 0] : List ℕ) ≠ [] ∧
    get_response ([1, 1, 0] : List ℕ) = some 1 ∧
    (∃ l, get_response ([1, 1, 0] : List ℕ) = some l ∧ l ∈ [1, 1, 0] ∧
      (∀ y ∈ ([1, 1, 0] : List ℕ), List.count y [1, 1, 0] ≤ List.count l [1, 1, 0]) ∧
      (∀ y ∈ ([1, 1, 0] : List ℕ), List.count y [1, 1, 0] = List.count l [1, 1, 0] →
        firstIdx [1, 1, 0] l ≤ firstIdx [1, 1, 0] y)) :=
  ⟨by decide, by decide, get_response_plurality [1, 1, 0] (by decide)⟩

/-! ### Claim theorems: neighbour search (C5, C9) -/

lemma perm_pair {i j a b : ℕ} (hab : a ≠ b) (h : ([i, j] : List ℕ).Perm [a, b]) :
    (i = a ∧ j = b) ∨ (i = b ∧ j = a) := by
  have hi : i ∈ [a, b] := h.mem_iff.mp (by simp)
  have hj : j ∈ [a, b] := h.mem_iff.mp (by simp)
  simp at hi hj
  have hca := h.count_eq a
  have hcb := h.count_eq b
  rcases hi with hi | hi
  · rcases hj with hj | hj
    · exfalso
      subst hi
      subst hj
      simp [List.count_cons, List.count_nil, hab, Ne.symm hab] at hcb
    · exact Or.inl ⟨hi, hj⟩
  · rcases hj with hj | hj
    · exact Or.inr ⟨hi, hj⟩
    · exfalso
      subst hi
      subst hj
      simp [List.count_cons, List.count_nil, hab, Ne.symm hab] at hca

/-- Claim C5: when `K` is at least the size of the reference set, the search
succeeds and returns exactly `len(reference)` rows and labels — the count is
capped at the reference-set size, never padded to `K`. -/
theorem get_neighbours_count_capped {L : Type} [Inhabited L]
    (data : List (List ℚ)) (labels : List L) (q : List ℚ) (K : ℕ) (idx : List ℕ)
    (_hlab : labels.length = data.length)
    (_hdim : ∀ row ∈ data, row.length = q.length)
    (hsort : IsArgsort (data.map (dist_val q)) idx)
    (hK : data.length ≤ K) :
    (get_neighbours data labels K idx).1.length = data.length ∧
    (get_neighbours data labels K idx).2.length = data.length := by
  have hidx : idx.length = data.length := by
    simpa using hsort.1.length_eq
  constructor
  · simp [get_neighbours, select, List.length_take, hidx, Nat.min_eq_right hK]
  · simp [get_neighbours, select, List.length_take, hidx, Nat.min_eq_right hK]

/-- Witness for C5: one reference point, `K = 2`, one result. -/
theorem get_neighbours_count_capped_witness :
    (([7] : List ℕ).length = ([[0]] : List (List ℚ)).length ∧
     (∀ row ∈ ([[0]] : List (List ℚ)), row.length = ([0] : List ℚ).length) ∧
     IsArgsort (([[0]] : List (List ℚ)).map (dist_val [0])) [0] ∧
     ([[0]] : List (List ℚ)).length ≤ 2) ∧
    (get_neighbours ([[0]] : List (List ℚ)) ([7] : List ℕ) 2 [0]).1.length = 1 ∧
    (get_neighbours ([[0]] : List (List ℚ)) ([7] : List ℕ) 2 [0]).2.length = 1 := by
  have hsort : IsArgsort (([[0]] : List (List ℚ)).map (dist_val [0])) [0] := by
    constructor
    · have hr : List.range (([[0]] : List (List ℚ)).map (dist_val [0])).length = [0] := by
        decide
      rw [hr]
    · simp [List.Sorted]
  have h := get_neighbours_count_capped [[0]] ([7] : List ℕ) [0] 2 [0] rfl
    (by simp) hsort (by simp)
  exact ⟨⟨rfl, by simp, hsort, by simp⟩, by simpa using h.1, by simpa using h.2⟩

/-- Claim C9: `classify` is by construction the vote over the labels of the
neighbour search, and on the spec's literal scenario 2 (reference
`{([2,2,2], 0), ([4,4,4], 1)}`, query `[5,5,5]`, `k = 1`) every index
permutation `np.argsort` may return puts `[4,4,4]` first, so the nearest
neighbour is `[4,4,4]` and the predicted label is `1`. -/
theorem classify_scenario (idx : List ℕ)
    (hsort : IsArgsort (([[2,2,2],[4,4,4]] : List (List ℚ)).map (dist_val [5,5,5])) idx) :
    (∀ {L : Type} [Inhabited L] [DecidableEq L] (data : List (List ℚ)) (labels : List L)
      (K : ℕ) (j : List ℕ),
      classify data labels K j = get_response (get_neighbours data labels K j).2) ∧
    (get_neighbours ([[2,2,2],[4,4,4]] : List (List ℚ)) ([0,1] : List ℕ) 1 idx).1
      = [[4,4,4]] ∧
    classify ([[2,2,2],[4,4,4]] : List (List ℚ)) ([0,1] : List ℕ) 1 idx = some 1 := by
  obtain ⟨hperm, hsorted⟩ := hsort
  have h02 : dist_val [5,5,5] [2,2,2] = Real.sqrt 27 := by
    rw [dist_val]
    norm_num [sq_dist]
  have h14 : dist_val [5,5,5] [4,4,4] = Real.sqrt 3 := by
    rw [dist_val]
    norm_num [sq_dist]
  have hlt : Real.sqrt 3 < Real.sqrt 27 :=
    Real.sqrt_lt_sqrt (by norm_num) (by norm_num)
  have hpair : idx.Perm [0, 1] := by
    have hr : List.range
        (([[2,2,2],[4,4,4]] : List (List ℚ)).map (dist_val [5,5,5])).length = [0, 1] := by
      decide
    rw [hr] at hperm
    exact hperm
  have hlen2 : idx.length = 2 := by
    simpa using hpair.length_eq
  obtain ⟨i, j, rfl⟩ : ∃ i j, idx = [i, j] := by
    rcases idx with _ | ⟨i, _ | ⟨j, _ | ⟨k, t⟩⟩⟩ <;> simp at hlen2
    exact ⟨i, j, rfl⟩
  have hidx : i = 1 ∧ j = 0 := by
    rcases perm_pair (by decide) hpair with ⟨hi, hj⟩ | ⟨hi, hj⟩
    · exfalso
      subst hi
      subst hj
      have hle : dist_val [5,5,5] [2,2,2] ≤ dist_val [5,5,5] [4,4,4] := by
        simpa [List.Sorted, List.getD] using hsorted
      rw [h02, h14] at hle
      exact absurd hle (not_le.mpr hlt)
    · exact ⟨hi, hj⟩
  obtain ⟨rfl, rfl⟩ := hidx
  refine ⟨fun data labels K j => rfl, rfl, rfl⟩

/-- Witness for C9: the permutation `[1, 0]` satisfies the argsort contract
for the scenario distances. -/
theorem classify_scenario_witness :
    IsArgsort (([[2,2,2],[4,4,4]] : List (List ℚ)).map (dist_val [5,5,5])) [1, 0] ∧
    (get_neighbours ([[2,2,2],[4,4,4]] : List (List ℚ)) ([0,1] : List ℕ) 1 [1, 0]).1
      = [[4,4,4]] ∧
    classify ([[2,2,2],[4,4,4]] : List (List ℚ)) ([0,1] : List ℕ) 1 [1, 0] = some 1 := by
  have hsort : IsArgsort (([[2,2,2],[4,4,4]] : List (List ℚ)).map (dist_val [5,5,5])) [1, 0] := by
    constructor
    · have hr : List.range
          (([[2,2,2],[4,4,4]] : List (List ℚ)).map (dist_val [5,5,5])).length = [0, 1] := by
        decide
      rw [hr]
      exact List.Perm.swap 0 1 []
    · have h02 : dist_val [5,5,5] [2,2,2] = Real.sqrt 27 := by
        rw [dist_val]
        norm_num [sq_dist]
      have h14 : dist_val [5,5,5] [4,4,4] = Real.sqrt 3 := by
        rw [dist_val]
        norm_num [sq_dist]
      have hle : Real.sqrt 3 ≤ Real.sqrt 27 := Real.sqrt_le_sqrt (by norm_num)
      simp [List.Sorted, List.getD, h02, h14, hle]
  exact ⟨hsort, (classify_scenario [1, 0] hsort).2.1, (classify_scenario [1, 0] hsort).2.2⟩

end KNN
